import Mathlib

/-!
# Renovation allocation MIP — verification of the model builder and solution formatter

Shallow embedding of `main.go` of the renovation-allocation repository.
The program builds a mixed-integer program (binary variable per
(property, renovation) pair, one global budget constraint, one per-property
cardinality constraint, a linear maximization objective), hands it to an
external solver, and formats the solver's variable values back into
domain-level assignments.

Costs, effects and solver values are modelled as exact rationals (`ℚ`);
machine floating point is abstracted to `ℚ`, and Go's `math.Round`
(round half away from zero) is modelled exactly on `ℚ`.
Decision variables are identified by their creation index (`Nat`), matching
the order in which `m.NewBool()` is called.  The Go map
`propertyRenovationVariables` is modelled as an association list with
overwrite-on-insert semantics, matching Go map assignment.
-/

namespace RenovAlloc

/-- A renovation record of the input (`main.go` lines 38-44):
identifier, positive effect, cost subtracted from the budget. -/
structure Renovation where
  ID : String
  Effect : ℚ
  Cost : ℚ
deriving DecidableEq

instance : Inhabited Renovation := ⟨⟨"", 0, 0⟩⟩

/-- A property of the input (`main.go` lines 35-45): identifier plus the
menu of candidate renovations. -/
structure Property where
  ID : String
  Renovations : List Renovation
deriving DecidableEq

/-- The problem input (`main.go` lines 32-47): properties and the integer
budget. -/
structure Input where
  Properties : List Property
  Budget : Int
deriving DecidableEq

/-- One output record (`main.go` lines 51-56): the combination of a
property with an assigned renovation, carrying cost and effect. -/
structure assignments where
  Property : String
  RenovationID : String
  Cost : ℚ
  Effect : ℚ
deriving DecidableEq

instance : Inhabited assignments := ⟨⟨"", "", 0, 0⟩⟩

/-- The decisions made by the solver (`main.go` lines 59-61). -/
structure solution where
  Assignments : List assignments
deriving DecidableEq

/-- Comparator of a linear constraint (the `mip` SDK's constraint senses;
only `LessThanOrEqual` is used by this program). -/
inductive Sense where
  | lessThanOrEqual
  | greaterThanOrEqual
  | equal
deriving DecidableEq

/-- One linear term: a coefficient attached to a decision variable
(identified by creation index). -/
structure Term where
  coeff : ℚ
  var : Nat
deriving DecidableEq

/-- A linear constraint: comparator, right-hand side, and the list of terms
in the order `NewTerm` was called. -/
structure Constraint where
  sense : Sense
  rhs : ℚ
  terms : List Term
deriving DecidableEq

instance : Inhabited Constraint := ⟨⟨.lessThanOrEqual, 0, []⟩⟩

/-- Kind of a decision variable (`mip.Var`); this program only ever calls
`NewBool`, creating binary variables. -/
inductive VarKind where
  | bool
  | float
  | int
deriving DecidableEq

/-- The MIP model under construction (`mip.Model`).  The program creates
exactly one budget constraint (`main.go` lines 71-74) and then one count
constraint per property (line 86), so the model's constraints are the
budget constraint followed by the count constraints in creation order;
`vars` records each created variable's kind, in creation order. -/
structure Model where
  maximize : Bool
  objective : List Term
  budgetConstraint : Constraint
  countConstraints : List Constraint
  vars : List VarKind
deriving DecidableEq

/-- All constraints of the model in creation order: the budget constraint
was created first (`main.go` line 71), each count constraint afterwards. -/
def Model.constraints (m : Model) : List Constraint :=
  m.budgetConstraint :: m.countConstraints

/-- Number of decision variables created so far. -/
def Model.numVars (m : Model) : Nat :=
  m.vars.length

/-- `m.NewBool()`: create a fresh binary decision variable, returning its
creation index. -/
def Model.newBool (m : Model) : Model × Nat :=
  ({ m with vars := m.vars ++ [VarKind.bool] }, m.vars.length)

/-- `c.NewTerm(coeff, v)`: append a term to a linear expression. -/
def Constraint.newTerm (c : Constraint) (coeff : ℚ) (v : Nat) : Constraint :=
  { c with terms := c.terms ++ [⟨coeff, v⟩] }

/-- Go map assignment `m[k] = v`: overwrite the entry for `k` if present,
otherwise add it. -/
def mapInsert : List (String × List Nat) → String → List Nat → List (String × List Nat)
  | [], k, v => [(k, v)]
  | (k', v') :: rest, k, v =>
    if k' = k then (k, v) :: rest else (k', v') :: mapInsert rest k v

/-- Go map read `m[k]`: `some` the stored value, `none` when the key is
absent (Go yields the nil slice). -/
def mapLookup : List (String × List Nat) → String → Option (List Nat)
  | [], _ => none
  | (k', v') :: rest, k => if k' = k then some v' else mapLookup rest k

/-- Inner loop body (`main.go` lines 87-108): create a binary variable for
one renovation, add its objective term (coefficient = effect), its budget
term (coefficient = cost) and its count-constraint term (coefficient 1). -/
def addRenovation (m : Model) (cnt : Constraint) (r : Renovation) :
    Model × Constraint × Nat :=
  let (m, v) := m.newBool
  let m := { m with objective := m.objective ++ [(⟨r.Effect, v⟩ : Term)] }
  let m := { m with budgetConstraint := m.budgetConstraint.newTerm r.Cost v }
  let cnt := cnt.newTerm 1 v
  (m, cnt, v)

/-- The inner loop over one property's renovations, returning the updated
model, the property's count constraint, and the property's variable slice
in position order. -/
def addRenovations (m : Model) (cnt : Constraint) :
    List Renovation → Model × Constraint × List Nat
  | [] => (m, cnt, [])
  | r :: rs =>
    let s := addRenovation m cnt r
    let s' := addRenovations s.1 s.2.1 rs
    (s'.1, s'.2.1, s.2.2 :: s'.2.2)

/-- The outer loop over properties (`main.go` lines 79-109): for each
property create a fresh `≤ 3` count constraint (line 86), process its
renovations, and store its variable slice in the map under the property's
ID (overwriting any previous entry with the same ID, as Go map assignment
does). -/
def addProperties (m : Model) (idx : List (String × List Nat)) :
    List Property → Model × List (String × List Nat)
  | [] => (m, idx)
  | p :: ps =>
    let s := addRenovations m (⟨.lessThanOrEqual, 3, []⟩ : Constraint) p.Renovations
    let m' := { s.1 with countConstraints := s.1.countConstraints ++ [s.2.1] }
    addProperties m' (mapInsert idx p.ID s.2.2) ps

/-- Model construction part of `solver` (`main.go` lines 65-109): a fresh
model with maximization sense (line 68), the budget constraint with
right-hand side `Budget` and comparator `≤` (lines 71-74), then the loop
over properties.  Returns the built model and the variable index. -/
def buildModel (inp : Input) : Model × List (String × List Nat) :=
  let m : Model :=
    { maximize := true
      objective := []
      budgetConstraint := ⟨.lessThanOrEqual, (inp.Budget : ℚ), []⟩
      countConstraints := []
      vars := [] }
  addProperties m [] inp.Properties

/-- Status of a solver result (`mip.Solution`): optimal, suboptimal
(feasible but not proven optimal, e.g. after a time limit), infeasible, or
solver error. -/
inductive Status where
  | optimal
  | subOptimal
  | infeasible
  | solverError
deriving DecidableEq

/-- A solver result: its status and the assigned value of each decision
variable (`solverSolution.Value`), as an exact rational. -/
structure SolverSolution where
  status : Status
  value : Nat → ℚ

/-- `solverSolution.IsOptimal()`. -/
def SolverSolution.isOptimal (s : SolverSolution) : Bool :=
  s.status = Status.optimal

/-- `solverSolution.IsSubOptimal()`. -/
def SolverSolution.isSubOptimal (s : SolverSolution) : Bool :=
  s.status = Status.subOptimal

/-- A solver result is usable when its status is optimal or suboptimal. -/
def usable (s : SolverSolution) : Bool :=
  s.isOptimal || s.isSubOptimal

/-- Go's `int(math.Round(q))` on an exact rational: round half away from
zero.  For `q ≥ 0` this is `⌊q + 1/2⌋` and for `q < 0` it is
`-⌊-q + 1/2⌋`; both branches are written here as a single integer
floor-division on numerator and denominator so that the function evaluates
by kernel reduction (`Int` division `/` is floor division, see
`goRound_eq_floor` below for the floor form). -/
def goRound (q : ℚ) : Int :=
  if q < 0 then -((-2 * q.num + q.den) / (2 * q.den))
  else (2 * q.num + q.den) / (2 * q.den)

/-- The variable stored for property `pid` at renovation position `j`
(only meaningful when the lookup is in range, cf. `formatRens`). -/
def varAt (idx : List (String × List Nat)) (pid : String) (j : Nat) : Nat :=
  ((mapLookup idx pid).getD []).getD j 0

/-- Inner loop of `format` (`main.go` lines 159-176) over one property's
renovations, carried at position `j`: look up the property's variable at
position `j` (`none` models the Go panic when the index access is out of
range, e.g. after a duplicate-ID overwrite), skip the pair when the
rounded solver value is `< 1`, otherwise append an assignment carrying the
property ID and the renovation's ID, cost and effect from the input
record. -/
def formatRens (s : SolverSolution) (idx : List (String × List Nat))
    (pid : String) : Nat → List Renovation → List assignments →
    Option (List assignments)
  | _, [], acc => some acc
  | j, r :: rs, acc =>
    match ((mapLookup idx pid).getD [])[j]? with
    | none => none
    | some v =>
      if goRound (s.value v) < 1 then formatRens s idx pid (j + 1) rs acc
      else formatRens s idx pid (j + 1) rs
        (acc ++ [(⟨pid, r.ID, r.Cost, r.Effect⟩ : assignments)])

/-- Outer loop of `format` (`main.go` lines 158-177) over the properties
in input order. -/
def formatProps (s : SolverSolution) (idx : List (String × List Nat)) :
    List Property → List assignments → Option (List assignments)
  | [], acc => some acc
  | p :: ps, acc =>
    match formatRens s idx p.ID 0 p.Renovations acc with
    | none => none
    | some acc' => formatProps s idx ps acc'

/-- `format` (`main.go` lines 148-182): if the solver result is neither
optimal nor suboptimal return the empty solution; otherwise walk the
properties and renovations in input order collecting the selected pairs.
`none` models the Go panic on an out-of-range variable lookup (possible
only when property IDs collide); the program never hits it on inputs with
distinct property IDs. -/
def format (inp : Input) (solverSolution : SolverSolution)
    (propertyRenovationVariables : List (String × List Nat)) :
    Option solution :=
  if !solverSolution.isOptimal && !solverSolution.isSubOptimal then
    some ⟨[]⟩
  else
    (formatProps solverSolution propertyRenovationVariables
      inp.Properties []).map fun a => ⟨a⟩

/-- Outcomes of the external solver SDK calls made by `solver`
(`main.go` lines 112-137): construction (`mip.NewSolver`), configuration
(`SetMaximumDuration`, `SetMIPGapRelative`) and the solve call itself.
Each is abstracted to its observable outcome; errors are strings
propagated verbatim. -/
structure SolverEnv where
  newSolver : Except String Unit
  setMaximumDuration : Except String Unit
  setMIPGapRelative : Except String Unit
  solve : Except String SolverSolution

/-- The `solver` pipeline (`main.go` lines 63-145): build the model, then
construct, configure and run the external solver, propagating any error
unmodified with empty output; on success, format the solution.
`.ok none` models the formatter's out-of-range panic (never reached for
inputs with distinct property IDs); `.error e` is the Go
`return schema.Output{}, err` — an error together with the empty output
and no assignments. -/
def solver (env : SolverEnv) (inp : Input) : Except String (Option solution) :=
  let built := buildModel inp
  match env.newSolver with
  | .error e => .error e
  | .ok _ =>
    match env.setMaximumDuration with
    | .error e => .error e
    | .ok _ =>
      match env.setMIPGapRelative with
      | .error e => .error e
      | .ok _ =>
        match env.solve with
        | .error e => .error e
        | .ok s => .ok (format inp s built.2)

/-! ## Analysis definitions

Closed forms of what the builder and formatter produce, used to state and
prove the claims.  These are spec-side descriptions; the theorems below
prove them equal to what the translated code computes. -/

instance : Inhabited Property := ⟨⟨"", []⟩⟩

/-- The terms contributed by a run of renovations whose variables are
numbered consecutively from `n`, with coefficient `f r` for renovation
`r`. -/
def termsFrom (f : Renovation → ℚ) : Nat → List Renovation → List Term
  | _, [] => []
  | n, r :: rs => ⟨f r, n⟩ :: termsFrom f (n + 1) rs

/-- All renovations of a property list, flattened in input order; the
variable with creation index `v` belongs to `(flatRens ps).getD v`. -/
def flatRens : List Property → List Renovation
  | [] => []
  | p :: ps => p.Renovations ++ flatRens ps

/-- Total number of (property, renovation) pairs. -/
def totalRens (ps : List Property) : Nat :=
  (flatRens ps).length

/-- The terms contributed by a property list whose first variable has
creation index `n`. -/
def propTermsFrom (f : Renovation → ℚ) : Nat → List Property → List Term
  | _, [] => []
  | n, p :: ps =>
    termsFrom f n p.Renovations ++ propTermsFrom f (n + p.Renovations.length) ps

/-- `k` consecutive variable indices starting at `n`. -/
def varsFrom : Nat → Nat → List Nat
  | _, 0 => []
  | n, k + 1 => n :: varsFrom (n + 1) k

/-- The per-property count constraints for a property list whose first
variable has creation index `n`. -/
def countCsFrom : Nat → List Property → List Constraint
  | _, [] => []
  | n, p :: ps =>
    ⟨.lessThanOrEqual, 3, termsFrom (fun _ => 1) n p.Renovations⟩ ::
      countCsFrom (n + p.Renovations.length) ps

/-- The (property ID, variable slice) pairs inserted into the variable
index, in insertion order. -/
def idxPairsFrom : Nat → List Property → List (String × List Nat)
  | _, [] => []
  | n, p :: ps =>
    (p.ID, varsFrom n p.Renovations.length) ::
      idxPairsFrom (n + p.Renovations.length) ps

/-- Insert a batch of pairs into a map, left to right (so a later pair
with the same key overwrites an earlier one). -/
def mapInsertAll : List (String × List Nat) → List (String × List Nat) →
    List (String × List Nat)
  | idx, [] => idx
  | idx, (k, v) :: rest => mapInsertAll (mapInsert idx k v) rest

/-- The value attached to the LAST pair of `pairs` carrying key `pid`
(Go-map last-writer-wins semantics). -/
def lastLookup : List (String × List Nat) → String → Option (List Nat)
  | [], _ => none
  | (k, v) :: rest, pid =>
    match lastLookup rest pid with
    | some w => some w
    | none => if k = pid then some v else none

/-- Creation index of the first variable of the `k`-th property. -/
def offsetAt : List Property → Nat → Nat
  | _, 0 => 0
  | [], _ + 1 => 0
  | p :: ps, k + 1 => p.Renovations.length + offsetAt ps k

/-- The variable index covers every property of the list: each property's
stored variable slice is at least as long as its renovation list.  This
holds for the index built from the same input whenever property IDs are
distinct; when it fails the Go formatter would panic on an out-of-range
slice access. -/
def covers (idx : List (String × List Nat)) (ps : List Property) : Bool :=
  ps.all fun p => p.Renovations.length ≤ ((mapLookup idx p.ID).getD []).length

/-- Closed form of the formatter's inner loop: the assignments produced
for one property's renovations starting at position `j` — exactly the
pairs whose rounded solver value is `≥ 1`, in input order. -/
def rowFrom (s : SolverSolution) (idx : List (String × List Nat))
    (pid : String) : Nat → List Renovation → List assignments
  | _, [] => []
  | j, r :: rs =>
    if goRound (s.value (varAt idx pid j)) < 1 then rowFrom s idx pid (j + 1) rs
    else ⟨pid, r.ID, r.Cost, r.Effect⟩ :: rowFrom s idx pid (j + 1) rs

/-- Closed form of the formatter's output on a usable solver result:
rows per property, in input property order. -/
def formatted (s : SolverSolution) (idx : List (String × List Nat)) :
    List Property → List assignments
  | [] => []
  | p :: ps => rowFrom s idx p.ID 0 p.Renovations ++ formatted s idx ps

/-- Every (property, renovation) pair of the input, as an assignment
record, in input order. -/
def inputAssignments : List Property → List assignments
  | [] => []
  | p :: ps =>
    p.Renovations.map (fun r => ⟨p.ID, r.ID, r.Cost, r.Effect⟩) ++
      inputAssignments ps

/-- Value of a linear expression under a variable valuation. -/
def evalTerms (v : Nat → ℚ) : List Term → ℚ
  | [] => 0
  | t :: ts => t.coeff * v t.var + evalTerms v ts

/-- A valuation satisfies one linear constraint. -/
def Constraint.satBy (c : Constraint) (v : Nat → ℚ) : Bool :=
  match c.sense with
  | .lessThanOrEqual => decide (evalTerms v c.terms ≤ c.rhs)
  | .greaterThanOrEqual => decide (c.rhs ≤ evalTerms v c.terms)
  | .equal => decide (evalTerms v c.terms = c.rhs)

/-- A valuation is feasible for a model: every binary variable takes value
0 or 1, and every constraint holds.  This is what an optimal or
suboptimal (feasible) status of a correct MIP solver guarantees about the
values it reports. -/
def Model.feasible (m : Model) (v : Nat → ℚ) : Bool :=
  ((List.range m.numVars).all fun i =>
    match m.vars.getD i VarKind.float with
    | VarKind.bool => decide (v i = 0 ∨ v i = 1)
    | _ => true) &&
  m.constraints.all fun c => c.satBy v

/-- All terms of all per-property count constraints, concatenated. -/
def allCountTerms (m : Model) : List Term :=
  m.countConstraints.foldr (fun c acc => c.terms ++ acc) []

/-- Sum of the values of `k` consecutive variables starting at `b`. -/
def sumVals (val : Nat → ℚ) : Nat → Nat → ℚ
  | _, 0 => 0
  | b, k + 1 => val b + sumVals val (b + 1) k


/-! ## Concrete instances (spec scenarios, used by witnesses) -/

/-- Scenario A of the spec: one property with three renovations,
budget 10. -/
def inpA : Input :=
  ⟨[⟨"P1", [⟨"r1", 3, 5⟩, ⟨"r2", 5, 4⟩, ⟨"r3", 1, 3⟩]⟩], 10⟩

/-- An optimal solver result for scenario A selecting r1 and r2. -/
def sA : SolverSolution :=
  ⟨.optimal, fun v => if v = 0 ∨ v = 1 then 1 else 0⟩

/-- A solver-error result (scenario D of the spec). -/
def sErr : SolverSolution := ⟨.solverError, fun _ => 0⟩

/-- A degenerate input: one property with no renovations, budget 0. -/
def inpE : Input := ⟨[⟨"P1", []⟩], 0⟩

/-- An all-zero optimal result. -/
def sE : SolverSolution := ⟨.optimal, fun _ => 0⟩

/-- An input with a duplicated property ID ("A" twice). -/
def inpDup : Input :=
  ⟨[⟨"A", [⟨"a1", 1, 1⟩, ⟨"a2", 1, 1⟩]⟩, ⟨"A", [⟨"a3", 1, 1⟩]⟩], 5⟩

/-- Budget-0 input with a zero-cost renovation (for the C5
counterexample). -/
def inp0 : Input := ⟨[⟨"p1", [⟨"r1", 1, 0⟩]⟩], 0⟩

/-- An all-one optimal result. -/
def s1 : SolverSolution := ⟨.optimal, fun _ => 1⟩

/-- Second all-one optimal result, written differently (for C9). -/
def s9 : SolverSolution := ⟨.optimal, fun _ => 1 + 0⟩

/-- Environment whose solver construction fails. -/
def envE1 : SolverEnv :=
  ⟨.error "construction failed", .ok (), .ok (), .ok s1⟩

/-- Environment whose duration configuration fails. -/
def envE2 : SolverEnv :=
  ⟨.ok (), .error "invalid duration", .ok (), .ok s1⟩

/-- Environment whose gap configuration fails. -/
def envE3 : SolverEnv :=
  ⟨.ok (), .ok (), .error "invalid gap", .ok s1⟩

/-- Environment whose solve call fails. -/
def envE4 : SolverEnv :=
  ⟨.ok (), .ok (), .ok (), .error "solve failed"⟩

/-! ## Map lemmas -/

theorem mapLookup_mapInsert (l : List (String × List Nat)) (k : String)
    (v : List Nat) (k' : String) :
    mapLookup (mapInsert l k v) k' =
      if k = k' then some v else mapLookup l k' := by
  induction l with
  | nil => simp [mapInsert, mapLookup]
  | cons kv rest ih =>
    obtain ⟨k₀, v₀⟩ := kv
    by_cases h0 : k₀ = k <;> by_cases h1 : k = k' <;>
      by_cases h2 : k₀ = k' <;>
      simp_all [mapInsert, mapLookup]

theorem mapLookup_mapInsertAll (pairs : List (String × List Nat)) :
    ∀ (idx : List (String × List Nat)) (pid : String),
    mapLookup (mapInsertAll idx pairs) pid =
      (lastLookup pairs pid).or (mapLookup idx pid) := by
  induction pairs with
  | nil => intro idx pid; simp [mapInsertAll, lastLookup, Option.or]
  | cons kv rest ih =>
    intro idx pid
    obtain ⟨k, v⟩ := kv
    simp only [mapInsertAll]
    rw [ih]
    simp only [lastLookup]
    cases h : lastLookup rest pid with
    | some w => simp [Option.or]
    | none =>
      rw [mapLookup_mapInsert]
      by_cases hk : k = pid <;> simp [hk, Option.or]

/-! ## Builder closed form -/

set_option maxRecDepth 4000

theorem addRenovations_eq (rs : List Renovation) :
    ∀ (m : Model) (cnt : Constraint),
    addRenovations m cnt rs =
      ({ m with
          objective := m.objective ++ termsFrom Renovation.Effect m.numVars rs
          budgetConstraint := { m.budgetConstraint with
            terms := m.budgetConstraint.terms ++
              termsFrom Renovation.Cost m.numVars rs }
          vars := m.vars ++ List.replicate rs.length VarKind.bool },
        { cnt with terms := cnt.terms ++ termsFrom (fun _ => 1) m.numVars rs },
        varsFrom m.numVars rs.length) := by
  induction rs with
  | nil =>
    intro m cnt
    obtain ⟨mx, mo, ⟨bs, br, bt⟩, mc, mv⟩ := m
    obtain ⟨cs, cr, ct⟩ := cnt
    simp [addRenovations, termsFrom, varsFrom]
  | cons r rs ih =>
    intro m cnt
    obtain ⟨mx, mo, ⟨bs, br, bt⟩, mc, mv⟩ := m
    obtain ⟨cs, cr, ct⟩ := cnt
    simp [addRenovations, addRenovation, Model.newBool, Constraint.newTerm, ih,
      Model.numVars, termsFrom, varsFrom, List.replicate_succ, List.append_assoc]

theorem addProperties_eq (ps : List Property) :
    ∀ (m : Model) (idx : List (String × List Nat)),
    addProperties m idx ps =
      ({ m with
          objective := m.objective ++ propTermsFrom Renovation.Effect m.numVars ps
          budgetConstraint := { m.budgetConstraint with
            terms := m.budgetConstraint.terms ++
              propTermsFrom Renovation.Cost m.numVars ps }
          countConstraints := m.countConstraints ++ countCsFrom m.numVars ps
          vars := m.vars ++ List.replicate (totalRens ps) VarKind.bool },
        mapInsertAll idx (idxPairsFrom m.numVars ps)) := by
  induction ps with
  | nil =>
    intro m idx
    obtain ⟨mx, mo, ⟨bs, br, bt⟩, mc, mv⟩ := m
    simp [addProperties, propTermsFrom, countCsFrom, idxPairsFrom, totalRens,
      flatRens, mapInsertAll]
  | cons p ps ih =>
    intro m idx
    simp only [addProperties, addRenovations_eq]
    rw [ih]
    obtain ⟨mx, mo, ⟨bs, br, bt⟩, mc, mv⟩ := m
    simp only [Model.numVars, List.length_append, List.length_replicate,
      propTermsFrom, countCsFrom, idxPairsFrom, mapInsertAll, List.nil_append,
      List.append_assoc, List.singleton_append, totalRens, flatRens,
      List.replicate_add]

theorem buildModel_eq (inp : Input) :
    buildModel inp =
      ({ maximize := true
         objective := propTermsFrom Renovation.Effect 0 inp.Properties
         budgetConstraint :=
           ⟨Sense.lessThanOrEqual, (inp.Budget : ℚ),
             propTermsFrom Renovation.Cost 0 inp.Properties⟩
         countConstraints := countCsFrom 0 inp.Properties
         vars := List.replicate (totalRens inp.Properties) VarKind.bool },
       mapInsertAll [] (idxPairsFrom 0 inp.Properties)) := by
  simp [buildModel, addProperties_eq, Model.numVars]

theorem buildIdx_lookup (inp : Input) (pid : String) :
    mapLookup (buildModel inp).2 pid =
      lastLookup (idxPairsFrom 0 inp.Properties) pid := by
  rw [buildModel_eq]
  simp [mapLookup_mapInsertAll, mapLookup, Option.or]
  cases lastLookup (idxPairsFrom 0 inp.Properties) pid <;> simp [Option.or]

/-! ## Formatter closed form -/

theorem formatRens_eq (s : SolverSolution) (idx : List (String × List Nat))
    (pid : String) (rs : List Renovation) :
    ∀ (j : Nat) (acc : List assignments),
    j + rs.length ≤ ((mapLookup idx pid).getD []).length →
    formatRens s idx pid j rs acc = some (acc ++ rowFrom s idx pid j rs) := by
  induction rs with
  | nil =>
    intro j acc _
    simp [formatRens, rowFrom]
  | cons r rs ih =>
    intro j acc h
    have hj : j < ((mapLookup idx pid).getD []).length := by
      simp only [List.length_cons] at h
      omega
    have hnext : j + 1 + rs.length ≤ ((mapLookup idx pid).getD []).length := by
      simp only [List.length_cons] at h
      omega
    have hv : varAt idx pid j = ((mapLookup idx pid).getD [])[j] :=
      List.getD_eq_getElem _ 0 hj
    have h1 := ih (j + 1) acc hnext
    have h2 := ih (j + 1) (acc ++ [(⟨pid, r.ID, r.Cost, r.Effect⟩ : assignments)]) hnext
    simp only [formatRens, rowFrom, hv, List.getElem?_eq_getElem hj]
    by_cases hlt : goRound (s.value (((mapLookup idx pid).getD [])[j])) < 1 <;>
      simp [hlt, h1, h2, List.append_assoc]

theorem formatProps_eq (s : SolverSolution) (idx : List (String × List Nat))
    (ps : List Property) :
    ∀ (acc : List assignments), covers idx ps = true →
    formatProps s idx ps acc = some (acc ++ formatted s idx ps) := by
  induction ps with
  | nil =>
    intro acc _
    simp [formatProps, formatted]
  | cons p ps ih =>
    intro acc hc
    simp only [covers, List.all_cons, Bool.and_eq_true, decide_eq_true_eq] at hc
    have hcov : 0 + p.Renovations.length ≤
        ((mapLookup idx p.ID).getD []).length := by
      omega
    have h1 := formatRens_eq s idx p.ID p.Renovations 0 acc hcov
    have h2 := ih (acc ++ rowFrom s idx p.ID 0 p.Renovations)
      (by simpa [covers] using hc.2)
    simp [formatProps, h1, h2, formatted, List.append_assoc]

theorem format_eq (inp : Input) (s : SolverSolution)
    (idx : List (String × List Nat))
    (hu : usable s = true) (hc : covers idx inp.Properties = true) :
    format inp s idx = some ⟨formatted s idx inp.Properties⟩ := by
  have h1 : (!s.isOptimal && !s.isSubOptimal) = false := by
    simp only [usable, Bool.or_eq_true] at hu
    rcases hu with h | h <;> simp [h]
  have h2 := formatProps_eq s idx inp.Properties [] hc
  simp [format, h1, h2]

/-! ## Rounding lemmas -/

theorem floor_add_half (q : ℚ) :
    ⌊q + 1/2⌋ = (2 * q.num + q.den) / (2 * q.den) := by
  have h2 : ((2 * q.den : ℕ) : ℚ) ≠ 0 := by
    have := q.den_pos
    push_cast
    positivity
  have hq : (q : ℚ) * (q.den : ℚ) = (q.num : ℚ) := Rat.mul_den_eq_num q
  have key : q + 1/2 =
      ((2 * q.num + (q.den : ℤ) : ℤ) : ℚ) / ((2 * q.den : ℕ) : ℚ) := by
    rw [eq_div_iff h2]
    push_cast
    linear_combination (2 : ℚ) * hq
  rw [key, Rat.floor_intCast_div_natCast]
  push_cast
  rfl

/-- `goRound` is Go's `math.Round`: `⌊q + 1/2⌋` for nonnegative `q` and
`-⌊-q + 1/2⌋` for negative `q` (round half away from zero). -/
theorem goRound_eq_floor (q : ℚ) :
    goRound q = if q < 0 then -⌊-q + 1/2⌋ else ⌊q + 1/2⌋ := by
  by_cases h : q < 0
  · simp only [goRound, if_pos h, floor_add_half, Rat.neg_num, Rat.neg_den]
    simp [mul_neg, neg_mul]
  · simp only [goRound, if_neg h, floor_add_half]

theorem goRound_zero : goRound 0 = 0 := by decide

theorem goRound_one : goRound 1 = 1 := by decide

theorem goRound_eq_zero_of_lt_half (q : ℚ) (h0 : 0 < q) (h : q < 1/2) :
    goRound q = 0 := by
  rw [goRound_eq_floor, if_neg (by linarith)]
  rw [Int.floor_eq_zero_iff]
  constructor <;> simp <;> linarith

/-! ## Term filter lemmas (for claim C1) -/

theorem totalRens_cons (p : Property) (ps : List Property) :
    totalRens (p :: ps) = p.Renovations.length + totalRens ps := by
  simp [totalRens, flatRens]

theorem termsFrom_filter (f : Renovation → ℚ) (rs : List Renovation) :
    ∀ (n v : Nat),
    (termsFrom f n rs).filter (fun t => t.var == v) =
      if n ≤ v ∧ v < n + rs.length then
        [⟨f (rs.getD (v - n) default), v⟩]
      else [] := by
  induction rs with
  | nil =>
    intro n v
    rw [if_neg (by simp)]
    simp [termsFrom]
  | cons r rs ih =>
    intro n v
    simp only [termsFrom, List.filter_cons]
    by_cases hv : n = v
    · subst hv
      rw [if_pos (by simp), ih]
      rw [if_neg (by omega), if_pos (by simp)]
      simp
    · rw [if_neg (by simp; omega), ih]
      by_cases h1 : n + 1 ≤ v ∧ v < n + 1 + rs.length
      · rw [if_pos h1, if_pos (by simp; omega)]
        have hsub : v - n = (v - (n + 1)) + 1 := by omega
        rw [hsub, List.getD_cons_succ]
      · rw [if_neg h1, if_neg (by simp; omega)]

theorem propTermsFrom_filter (f : Renovation → ℚ) (ps : List Property) :
    ∀ (n v : Nat),
    (propTermsFrom f n ps).filter (fun t => t.var == v) =
      if n ≤ v ∧ v < n + totalRens ps then
        [⟨f ((flatRens ps).getD (v - n) default), v⟩]
      else [] := by
  induction ps with
  | nil =>
    intro n v
    rw [if_neg (by simp [totalRens, flatRens])]
    simp [propTermsFrom]
  | cons p ps ih =>
    intro n v
    simp only [propTermsFrom, List.filter_append, termsFrom_filter, ih,
      totalRens_cons, flatRens]
    by_cases h1 : n ≤ v ∧ v < n + p.Renovations.length
    · rw [if_pos h1, if_neg (by omega), if_pos (by omega)]
      rw [List.getD_append _ _ _ _ (by omega)]
      simp
    · by_cases h2 : n + p.Renovations.length ≤ v ∧
          v < n + (p.Renovations.length + totalRens ps)
      · rw [if_neg h1, if_pos (by omega), if_pos (by omega)]
        rw [List.getD_append_right _ _ _ _ (by omega)]
        have hsub : v - n - p.Renovations.length = v - (n + p.Renovations.length) := by
          omega
        simp [hsub]
      · rw [if_neg h1, if_neg (by omega), if_neg (by omega)]
        simp

theorem allCountTerms_countCsFrom (ps : List Property) :
    ∀ n, (countCsFrom n ps).foldr (fun c acc => c.terms ++ acc) [] =
      propTermsFrom (fun _ => 1) n ps := by
  induction ps with
  | nil => intro n; simp [countCsFrom, propTermsFrom]
  | cons p ps ih => intro n; simp [countCsFrom, propTermsFrom, ih]

theorem countCsFrom_length (ps : List Property) :
    ∀ n, (countCsFrom n ps).length = ps.length := by
  induction ps with
  | nil => intro n; simp [countCsFrom]
  | cons p ps ih => intro n; simp [countCsFrom, ih]

theorem countCsFrom_getD (ps : List Property) :
    ∀ n k, k < ps.length →
    (countCsFrom n ps).getD k default =
      ⟨Sense.lessThanOrEqual, 3,
        termsFrom (fun _ => 1) (n + offsetAt ps k)
          ((ps.getD k default).Renovations)⟩ := by
  induction ps with
  | nil => intro n k hk; simp at hk
  | cons p ps ih =>
    intro n k hk
    cases k with
    | zero => simp [countCsFrom, offsetAt]
    | succ k =>
      have hk' : k < ps.length := by simpa using hk
      simp only [countCsFrom, offsetAt, List.getD_cons_succ]
      rw [ih (n + p.Renovations.length) k hk', Nat.add_assoc]

/-! ## Variable index lemmas -/

theorem varsFrom_length : ∀ (k n : Nat), (varsFrom n k).length = k := by
  intro k
  induction k with
  | zero => intro n; simp [varsFrom]
  | succ k ih => intro n; simp [varsFrom, ih]

theorem varsFrom_getD : ∀ (k n j : Nat), j < k →
    (varsFrom n k).getD j 0 = n + j := by
  intro k
  induction k with
  | zero => intro n j hj; omega
  | succ k ih =>
    intro n j hj
    cases j with
    | zero => simp [varsFrom]
    | succ j =>
      simp only [varsFrom, List.getD_cons_succ]
      rw [ih (n + 1) j (by omega)]
      omega

theorem idxPairsFrom_keys (ps : List Property) :
    ∀ n, (idxPairsFrom n ps).map Prod.fst = ps.map Property.ID := by
  induction ps with
  | nil => intro n; simp [idxPairsFrom]
  | cons p ps ih => intro n; simp [idxPairsFrom, ih]

theorem lastLookup_eq_none (pairs : List (String × List Nat)) (pid : String)
    (h : pid ∉ pairs.map Prod.fst) : lastLookup pairs pid = none := by
  induction pairs with
  | nil => simp [lastLookup]
  | cons kv rest ih =>
    obtain ⟨k, v⟩ := kv
    simp only [List.map_cons, List.mem_cons] at h
    push_neg at h
    simp [lastLookup, ih h.2]
    exact fun he => h.1 he.symm

theorem lastLookup_idxPairs_nodup (ps : List Property) :
    ∀ n, (ps.map Property.ID).Nodup → ∀ k, k < ps.length →
    lastLookup (idxPairsFrom n ps) ((ps.getD k default).ID) =
      some (varsFrom (n + offsetAt ps k)
        ((ps.getD k default).Renovations.length)) := by
  induction ps with
  | nil => intro n _ k hk; simp at hk
  | cons p ps ih =>
    intro n hnd k hk
    rw [List.map_cons, List.nodup_cons] at hnd
    obtain ⟨h1, h2⟩ := hnd
    cases k with
    | zero =>
      have hnone :
          lastLookup (idxPairsFrom (n + p.Renovations.length) ps) p.ID = none := by
        apply lastLookup_eq_none
        rw [idxPairsFrom_keys]
        exact h1
      simp [idxPairsFrom, lastLookup, hnone, offsetAt]
    | succ k =>
      have hk' : k < ps.length := by simpa using hk
      have hih := ih (n + p.Renovations.length) h2 k hk'
      simp only [idxPairsFrom, List.getD_cons_succ, offsetAt, ← Nat.add_assoc,
        lastLookup]
      rw [hih]

theorem buildIdx_lookup_nodup (inp : Input)
    (hnd : (inp.Properties.map Property.ID).Nodup) (k : Nat)
    (hk : k < inp.Properties.length) :
    mapLookup (buildModel inp).2 ((inp.Properties.getD k default).ID) =
      some (varsFrom (offsetAt inp.Properties k)
        ((inp.Properties.getD k default).Renovations.length)) := by
  rw [buildIdx_lookup]
  have h := lastLookup_idxPairs_nodup inp.Properties 0 hnd k hk
  simpa using h

theorem covers_build_of_nodup (inp : Input)
    (hnd : (inp.Properties.map Property.ID).Nodup) :
    covers (buildModel inp).2 inp.Properties = true := by
  rw [covers, List.all_eq_true]
  intro p hp
  obtain ⟨k, hk, hpk⟩ := List.getElem_of_mem hp
  have hgd : inp.Properties.getD k default = p := by
    rw [List.getD_eq_getElem _ _ hk, hpk]
  have h := buildIdx_lookup_nodup inp hnd k hk
  rw [hgd] at h
  simp [h, varsFrom_length]

theorem offsetAt_add_le (ps : List Property) :
    ∀ k, k < ps.length →
    offsetAt ps k + (ps.getD k default).Renovations.length ≤ totalRens ps := by
  induction ps with
  | nil => intro k hk; simp at hk
  | cons p ps ih =>
    intro k hk
    cases k with
    | zero =>
      simp [offsetAt, totalRens_cons]
    | succ k =>
      have h := ih k (by simpa using hk)
      simp only [offsetAt, totalRens_cons, List.getD_cons_succ]
      omega

/-! ## Row and counting lemmas (for claims C5 and C6) -/

theorem rowFrom_property (s : SolverSolution) (idx : List (String × List Nat))
    (pid : String) (rs : List Renovation) :
    ∀ j, ∀ a ∈ rowFrom s idx pid j rs, a.Property = pid := by
  induction rs with
  | nil => intro j a ha; simp [rowFrom] at ha
  | cons r rs ih =>
    intro j a ha
    rw [rowFrom] at ha
    by_cases hlt : goRound (s.value (varAt idx pid j)) < 1
    · rw [if_pos hlt] at ha
      exact ih (j + 1) a ha
    · rw [if_neg hlt] at ha
      rcases List.mem_cons.mp ha with h | h
      · subst h; rfl
      · exact ih (j + 1) a h

theorem formatted_property_mem (s : SolverSolution)
    (idx : List (String × List Nat)) (ps : List Property) :
    ∀ a ∈ formatted s idx ps, a.Property ∈ ps.map Property.ID := by
  induction ps with
  | nil => intro a ha; simp [formatted] at ha
  | cons p ps ih =>
    intro a ha
    rw [formatted] at ha
    rcases List.mem_append.mp ha with h | h
    · simp [rowFrom_property s idx p.ID p.Renovations 0 a h]
    · simp [ih a h]

theorem countP_rowFrom_other (s : SolverSolution)
    (idx : List (String × List Nat)) (pid qid : String) (h : qid ≠ pid)
    (rs : List Renovation) (j : Nat) :
    (rowFrom s idx qid j rs).countP (fun a => a.Property == pid) = 0 := by
  rw [List.countP_eq_zero]
  intro a ha
  have hp := rowFrom_property s idx qid rs j a ha
  simp [hp, h]

theorem countP_formatted_other (s : SolverSolution)
    (idx : List (String × List Nat)) (ps : List Property) (pid : String)
    (h : pid ∉ ps.map Property.ID) :
    (formatted s idx ps).countP (fun a => a.Property == pid) = 0 := by
  rw [List.countP_eq_zero]
  intro a ha
  have hmem := formatted_property_mem s idx ps a ha
  simp only [beq_iff_eq]
  intro he
  rw [he] at hmem
  exact h hmem

theorem countP_rowFrom_self (s : SolverSolution)
    (idx : List (String × List Nat)) (pid : String) (rs : List Renovation)
    (j : Nat) :
    (rowFrom s idx pid j rs).countP (fun a => a.Property == pid) =
      (rowFrom s idx pid j rs).length := by
  rw [List.countP_eq_length]
  intro a ha
  simp [rowFrom_property s idx pid rs j a ha]

theorem countP_formatted_at (s : SolverSolution)
    (idx : List (String × List Nat)) (ps : List Property)
    (hnd : (ps.map Property.ID).Nodup) :
    ∀ k, k < ps.length →
    (formatted s idx ps).countP
        (fun a => a.Property == (ps.getD k default).ID) =
      (rowFrom s idx (ps.getD k default).ID 0
        (ps.getD k default).Renovations).length := by
  induction ps with
  | nil => intro k hk; simp at hk
  | cons p ps ih =>
    rw [List.map_cons, List.nodup_cons] at hnd
    obtain ⟨h1, h2⟩ := hnd
    intro k hk
    cases k with
    | zero =>
      simp only [formatted, List.countP_append, List.getD_cons_zero]
      rw [countP_rowFrom_self, countP_formatted_other s idx ps p.ID h1]
      omega
    | succ k =>
      have hk' : k < ps.length := by simpa using hk
      have hq : (ps.getD k default).ID ∈ ps.map Property.ID := by
        apply List.mem_map_of_mem
        rw [List.getD_eq_getElem _ _ hk']
        exact List.getElem_mem hk'
      have hne : p.ID ≠ (ps.getD k default).ID := fun he => h1 (he ▸ hq)
      simp only [formatted, List.countP_append, List.getD_cons_succ]
      rw [countP_rowFrom_other s idx _ p.ID hne p.Renovations 0]
      rw [ih h2 k hk']
      omega

theorem evalTerms_termsFrom_one (val : Nat → ℚ) (rs : List Renovation) :
    ∀ b, evalTerms val (termsFrom (fun _ => 1) b rs) =
      sumVals val b rs.length := by
  induction rs with
  | nil => intro b; simp [termsFrom, evalTerms, sumVals]
  | cons r rs ih => intro b; simp [termsFrom, evalTerms, sumVals, ih]

theorem rowFrom_length_le (s : SolverSolution)
    (idx : List (String × List Nat)) (pid : String) (b L N : Nat)
    (hlk : mapLookup idx pid = some (varsFrom b L))
    (hbin : ∀ v, v < N → s.value v = 0 ∨ s.value v = 1)
    (hbound : b + L ≤ N) (rs : List Renovation) :
    ∀ j, j + rs.length ≤ L →
    ((rowFrom s idx pid j rs).length : ℚ) ≤
      sumVals s.value (b + j) rs.length := by
  induction rs with
  | nil => intro j hj; simp [rowFrom, sumVals]
  | cons r rs ih =>
    intro j hj
    rw [List.length_cons] at hj
    have hjL : j < L := by omega
    have hvar : varAt idx pid j = b + j := by
      rw [varAt, hlk]
      simp only [Option.getD_some]
      exact varsFrom_getD L b j hjL
    have hih := ih (j + 1) (by omega)
    have hadd : b + (j + 1) = b + j + 1 := by omega
    rw [hadd] at hih
    rw [rowFrom, hvar]
    rcases hbin (b + j) (by omega) with h0 | h1
    · rw [if_pos (by rw [h0, goRound_zero]; norm_num)]
      simp only [List.length_cons]
      rw [sumVals, h0]
      linarith
    · rw [if_neg (by rw [h1, goRound_one]; norm_num)]
      simp only [List.length_cons]
      rw [sumVals, h1]
      push_cast
      linarith

/-! ## Feasibility unpacking for the built model -/

theorem feasible_binary (inp : Input) (s : SolverSolution)
    (hf : Model.feasible (buildModel inp).1 s.value = true) :
    ∀ v, v < totalRens inp.Properties → s.value v = 0 ∨ s.value v = 1 := by
  intro v hv
  rw [buildModel_eq, Model.feasible, Bool.and_eq_true] at hf
  have h := hf.1
  rw [List.all_eq_true] at h
  have hmem : v ∈ List.range (Model.numVars
      { maximize := true
        objective := propTermsFrom Renovation.Effect 0 inp.Properties
        budgetConstraint :=
          ⟨Sense.lessThanOrEqual, (inp.Budget : ℚ),
            propTermsFrom Renovation.Cost 0 inp.Properties⟩
        countConstraints := countCsFrom 0 inp.Properties
        vars := List.replicate (totalRens inp.Properties) VarKind.bool }) := by
    rw [List.mem_range]
    simpa [Model.numVars] using hv
  have hv' := h v hmem
  rw [List.getD_eq_getElem _ _ (by simpa using hv)] at hv'
  rw [List.getElem_replicate] at hv'
  simpa using hv'

theorem feasible_budget (inp : Input) (s : SolverSolution)
    (hf : Model.feasible (buildModel inp).1 s.value = true) :
    evalTerms s.value (propTermsFrom Renovation.Cost 0 inp.Properties) ≤
      (inp.Budget : ℚ) := by
  rw [buildModel_eq, Model.feasible, Bool.and_eq_true] at hf
  have h := hf.2
  rw [List.all_eq_true] at h
  have hb := h _ (List.mem_cons_self _ _)
  simpa [Constraint.satBy] using hb

theorem feasible_count (inp : Input) (s : SolverSolution)
    (hf : Model.feasible (buildModel inp).1 s.value = true) (k : Nat)
    (hk : k < inp.Properties.length) :
    evalTerms s.value (termsFrom (fun _ => 1) (offsetAt inp.Properties k)
      ((inp.Properties.getD k default).Renovations)) ≤ 3 := by
  rw [buildModel_eq, Model.feasible, Bool.and_eq_true] at hf
  have h := hf.2
  rw [List.all_eq_true] at h
  have hc := h ((countCsFrom 0 inp.Properties).getD k default) (by
    apply List.mem_cons_of_mem
    rw [List.getD_eq_getElem _ _ (by rw [countCsFrom_length]; exact hk)]
    exact List.getElem_mem _)
  rw [countCsFrom_getD _ 0 k hk] at hc
  simp only [Constraint.satBy, decide_eq_true_eq] at hc
  simpa using hc

theorem count_le_three_core (inp : Input) (s : SolverSolution)
    (hnd : (inp.Properties.map Property.ID).Nodup)
    (hf : Model.feasible (buildModel inp).1 s.value = true) :
    ∀ p ∈ inp.Properties,
    ((formatted s (buildModel inp).2 inp.Properties).countP
      (fun a => a.Property == p.ID)) ≤ 3 := by
  intro p hp
  obtain ⟨k, hk, hpk⟩ := List.getElem_of_mem hp
  have hgd : inp.Properties.getD k default = p := by
    rw [List.getD_eq_getElem _ _ hk, hpk]
  rw [← hgd]
  rw [countP_formatted_at s _ inp.Properties hnd k hk]
  have hlk := buildIdx_lookup_nodup inp hnd k hk
  have hbin := feasible_binary inp s hf
  have hbound := offsetAt_add_le inp.Properties k hk
  have hle := rowFrom_length_le s (buildModel inp).2
    ((inp.Properties.getD k default).ID) (offsetAt inp.Properties k)
    ((inp.Properties.getD k default).Renovations.length)
    (totalRens inp.Properties) hlk hbin hbound
    ((inp.Properties.getD k default).Renovations) 0 (by omega)
  have hsum := feasible_count inp s hf k hk
  rw [evalTerms_termsFrom_one] at hsum
  rw [Nat.add_zero] at hle
  have hq : (((rowFrom s (buildModel inp).2 ((inp.Properties.getD k default).ID)
      0 ((inp.Properties.getD k default).Renovations)).length : ℚ)) ≤ 3 := by
    linarith
  exact_mod_cast hq

/-! ## Budget-zero lemmas (for claim C5) -/

theorem evalTerms_nonneg (val : Nat → ℚ) (ts : List Term)
    (h : ∀ t ∈ ts, 0 ≤ t.coeff * val t.var) : 0 ≤ evalTerms val ts := by
  induction ts with
  | nil => simp [evalTerms]
  | cons t ts ih =>
    rw [evalTerms]
    have h1 := h t (List.mem_cons_self t ts)
    have h2 := ih fun u hu => h u (List.mem_cons_of_mem t hu)
    linarith

theorem budget_zero_forces (val : Nat → ℚ) (ts : List Term)
    (hc : ∀ t ∈ ts, 0 < t.coeff)
    (hb : ∀ t ∈ ts, val t.var = 0 ∨ val t.var = 1)
    (hsum : evalTerms val ts ≤ 0) :
    ∀ t ∈ ts, val t.var = 0 := by
  induction ts with
  | nil => simp
  | cons t ts ih =>
    have hterm : ∀ u ∈ t :: ts, 0 ≤ u.coeff * val u.var := by
      intro u hu
      rcases hb u hu with h0 | h1
      · rw [h0, mul_zero]
      · rw [h1, mul_one]
        exact le_of_lt (hc u hu)
    have htail : 0 ≤ evalTerms val ts :=
      evalTerms_nonneg val ts fun u hu => hterm u (List.mem_cons_of_mem t hu)
    have hhead : 0 ≤ t.coeff * val t.var := hterm t (List.mem_cons_self t ts)
    rw [evalTerms] at hsum
    intro u hu
    rcases List.mem_cons.mp hu with rfl | hu'
    · rcases hb u (List.mem_cons_self u ts) with h0 | h1
      · exact h0
      · exfalso
        have hcp := hc u (List.mem_cons_self u ts)
        rw [h1, mul_one] at hsum
        linarith
    · exact ih (fun w hw => hc w (List.mem_cons_of_mem t hw))
        (fun w hw => hb w (List.mem_cons_of_mem t hw)) (by linarith) u hu'

theorem termsFrom_coeff (f : Renovation → ℚ) (rs : List Renovation) :
    ∀ n t, t ∈ termsFrom f n rs → ∃ r ∈ rs, t.coeff = f r := by
  induction rs with
  | nil => intro n t ht; simp [termsFrom] at ht
  | cons r rs ih =>
    intro n t ht
    rw [termsFrom] at ht
    rcases List.mem_cons.mp ht with h | h
    · exact ⟨r, List.mem_cons_self r rs, by rw [h]⟩
    · obtain ⟨r', hr', hco⟩ := ih (n + 1) t h
      exact ⟨r', List.mem_cons_of_mem r hr', hco⟩

theorem propTermsFrom_coeff_pos (ps : List Property)
    (hpos : ∀ p ∈ ps, ∀ r ∈ p.Renovations, 0 < r.Cost) :
    ∀ n, ∀ t ∈ propTermsFrom Renovation.Cost n ps, 0 < t.coeff := by
  induction ps with
  | nil => intro n t ht; simp [propTermsFrom] at ht
  | cons p ps ih =>
    intro n t ht
    rw [propTermsFrom] at ht
    rcases List.mem_append.mp ht with h | h
    · obtain ⟨r, hr, hco⟩ := termsFrom_coeff Renovation.Cost p.Renovations n t h
      rw [hco]
      exact hpos p (List.mem_cons_self p ps) r hr
    · exact ih (fun q hq => hpos q (List.mem_cons_of_mem p hq)) _ t h

theorem termsFrom_var_lt (f : Renovation → ℚ) (rs : List Renovation) :
    ∀ n t, t ∈ termsFrom f n rs → n ≤ t.var ∧ t.var < n + rs.length := by
  induction rs with
  | nil => intro n t ht; simp [termsFrom] at ht
  | cons r rs ih =>
    intro n t ht
    rw [termsFrom] at ht
    rcases List.mem_cons.mp ht with h | h
    · rw [h]
      simp
    · have := ih (n + 1) t h
      simp only [List.length_cons]
      omega

theorem propTermsFrom_var_lt (f : Renovation → ℚ) (ps : List Property) :
    ∀ n t, t ∈ propTermsFrom f n ps → n ≤ t.var ∧ t.var < n + totalRens ps := by
  induction ps with
  | nil => intro n t ht; simp [propTermsFrom] at ht
  | cons p ps ih =>
    intro n t ht
    rw [propTermsFrom] at ht
    rcases List.mem_append.mp ht with h | h
    · have := termsFrom_var_lt f p.Renovations n t h
      rw [totalRens_cons]
      omega
    · have := ih (n + p.Renovations.length) t h
      rw [totalRens_cons]
      omega

theorem propTermsFrom_var_surj (f : Renovation → ℚ) (ps : List Property)
    (n v : Nat) (h1 : n ≤ v) (h2 : v < n + totalRens ps) :
    ∃ t ∈ propTermsFrom f n ps, t.var = v := by
  have hfil := propTermsFrom_filter f ps n v
  rw [if_pos ⟨h1, h2⟩] at hfil
  have hx : (⟨f ((flatRens ps).getD (v - n) default), v⟩ : Term) ∈
      (propTermsFrom f n ps).filter (fun t => t.var == v) := by
    rw [hfil]
    exact List.mem_singleton.mpr rfl
  obtain ⟨hmem, _⟩ := List.mem_filter.mp hx
  exact ⟨_, hmem, rfl⟩

theorem values_zero_of_budget_zero (inp : Input) (s : SolverSolution)
    (hb0 : inp.Budget = 0)
    (hpos : ∀ p ∈ inp.Properties, ∀ r ∈ p.Renovations, 0 < r.Cost)
    (hf : Model.feasible (buildModel inp).1 s.value = true) :
    ∀ v, v < totalRens inp.Properties → s.value v = 0 := by
  intro v hv
  have hbinary := feasible_binary inp s hf
  have hbudget := feasible_budget inp s hf
  rw [hb0] at hbudget
  have hforce := budget_zero_forces s.value
    (propTermsFrom Renovation.Cost 0 inp.Properties)
    (propTermsFrom_coeff_pos inp.Properties hpos 0)
    (fun t ht => hbinary t.var (by
      have := propTermsFrom_var_lt Renovation.Cost inp.Properties 0 t ht
      omega))
    (by simpa using hbudget)
  obtain ⟨t, htmem, htvar⟩ := propTermsFrom_var_surj Renovation.Cost
    inp.Properties 0 v (by omega) (by omega)
  have hz := hforce t htmem
  rw [htvar] at hz
  exact hz

theorem rowFrom_eq_nil (s : SolverSolution) (idx : List (String × List Nat))
    (pid : String) (rs : List Renovation) :
    ∀ j, (∀ i, i < rs.length → goRound (s.value (varAt idx pid (j + i))) < 1) →
    rowFrom s idx pid j rs = [] := by
  induction rs with
  | nil => intro j _; simp [rowFrom]
  | cons r rs ih =>
    intro j h
    have h0 := h 0 (by simp)
    rw [Nat.add_zero] at h0
    rw [rowFrom, if_pos h0]
    apply ih (j + 1)
    intro i hi
    have := h (i + 1) (by simpa using Nat.succ_lt_succ hi)
    have harr : j + (i + 1) = j + 1 + i := by omega
    rw [harr] at this
    exact this

theorem formatted_eq_nil (s : SolverSolution) (idx : List (String × List Nat))
    (ps : List Property)
    (h : ∀ p ∈ ps, rowFrom s idx p.ID 0 p.Renovations = []) :
    formatted s idx ps = [] := by
  induction ps with
  | nil => simp [formatted]
  | cons p ps ih =>
    rw [formatted, h p (List.mem_cons_self p ps),
      ih fun q hq => h q (List.mem_cons_of_mem p hq)]
    rfl

/-! ## Remaining helper lemmas -/

theorem format_unusable (inp : Input) (s : SolverSolution)
    (idx : List (String × List Nat)) (h : usable s = false) :
    format inp s idx = some ⟨[]⟩ := by
  rw [usable, Bool.or_eq_false_iff] at h
  simp [format, h.1, h.2]

theorem rowFrom_sublist (s : SolverSolution) (idx : List (String × List Nat))
    (pid : String) (rs : List Renovation) :
    ∀ j, (rowFrom s idx pid j rs).Sublist
      (rs.map fun r => (⟨pid, r.ID, r.Cost, r.Effect⟩ : assignments)) := by
  induction rs with
  | nil => intro j; simp [rowFrom]
  | cons r rs ih =>
    intro j
    rw [rowFrom, List.map_cons]
    by_cases hlt : goRound (s.value (varAt idx pid j)) < 1
    · rw [if_pos hlt]
      exact (ih (j + 1)).cons _
    · rw [if_neg hlt]
      exact (ih (j + 1)).cons₂ _

theorem formatted_sublist (s : SolverSolution)
    (idx : List (String × List Nat)) (ps : List Property) :
    (formatted s idx ps).Sublist (inputAssignments ps) := by
  induction ps with
  | nil => simp [formatted, inputAssignments]
  | cons p ps ih =>
    rw [formatted, inputAssignments]
    exact List.Sublist.append (rowFrom_sublist s idx p.ID p.Renovations 0) ih

theorem formatRens_mem (s : SolverSolution) (idx : List (String × List Nat))
    (pid : String) (rs : List Renovation) :
    ∀ j acc out, formatRens s idx pid j rs acc = some out →
    ∀ a ∈ out, a ∈ acc ∨ ∃ r ∈ rs, a = ⟨pid, r.ID, r.Cost, r.Effect⟩ := by
  induction rs with
  | nil =>
    intro j acc out h a ha
    rw [formatRens] at h
    obtain rfl := Option.some.inj h
    exact Or.inl ha
  | cons r rs ih =>
    intro j acc out h a ha
    rw [formatRens] at h
    cases hlk : ((mapLookup idx pid).getD [])[j]? with
    | none => rw [hlk] at h; exact absurd h (by simp)
    | some v =>
      rw [hlk] at h
      dsimp only at h
      by_cases hlt : goRound (s.value v) < 1
      · rw [if_pos hlt] at h
        rcases ih (j + 1) acc out h a ha with hacc | ⟨r', hr', he⟩
        · exact Or.inl hacc
        · exact Or.inr ⟨r', List.mem_cons_of_mem r hr', he⟩
      · rw [if_neg hlt] at h
        rcases ih (j + 1) _ out h a ha with hacc | ⟨r', hr', he⟩
        · rcases List.mem_append.mp hacc with h1 | h2
          · exact Or.inl h1
          · exact Or.inr ⟨r, List.mem_cons_self r rs, by simpa using h2⟩
        · exact Or.inr ⟨r', List.mem_cons_of_mem r hr', he⟩

theorem formatProps_mem (s : SolverSolution) (idx : List (String × List Nat))
    (ps : List Property) :
    ∀ acc out, formatProps s idx ps acc = some out →
    ∀ a ∈ out, a ∈ acc ∨ ∃ p ∈ ps, ∃ r ∈ p.Renovations,
      a = ⟨p.ID, r.ID, r.Cost, r.Effect⟩ := by
  induction ps with
  | nil =>
    intro acc out h a ha
    rw [formatProps] at h
    obtain rfl := Option.some.inj h
    exact Or.inl ha
  | cons p ps ih =>
    intro acc out h a ha
    rw [formatProps] at h
    cases hr : formatRens s idx p.ID 0 p.Renovations acc with
    | none => rw [hr] at h; exact absurd h (by simp)
    | some acc' =>
      rw [hr] at h
      dsimp only at h
      rcases ih acc' out h a ha with hacc | ⟨p', hp', r', hr', he⟩
      · rcases formatRens_mem s idx p.ID p.Renovations 0 acc acc' hr a hacc with
          h1 | ⟨r, hrm, he⟩
        · exact Or.inl h1
        · exact Or.inr ⟨p, List.mem_cons_self p ps, r, hrm, he⟩
      · exact Or.inr ⟨p', List.mem_cons_of_mem p hp', r', hr', he⟩

/-! ## Claim theorems -/

/-- Claim C1: for every input, the model built by `solver` contains exactly
Σ over properties of (number of renovations) decision variables, all
binary; the objective is a maximization; there are `1 + N_properties`
linear constraints — the budget constraint (right-hand side `Budget`,
comparator `≤`) plus one count constraint per property (the `k`-th count
constraint carrying exactly the `k`-th property's variables with
coefficient 1); and every decision variable occurs in exactly one budget
term (coefficient = its renovation's cost), exactly one count-constraint
term (coefficient 1), and exactly one objective term (coefficient = its
renovation's effect). -/
theorem claim_C1 (inp : Input) :
    ((buildModel inp).1.numVars = totalRens inp.Properties ∧
     (buildModel inp).1.vars =
       List.replicate (totalRens inp.Properties) VarKind.bool ∧
     (buildModel inp).1.maximize = true ∧
     (buildModel inp).1.constraints.length = 1 + inp.Properties.length ∧
     (buildModel inp).1.budgetConstraint.sense = Sense.lessThanOrEqual ∧
     (buildModel inp).1.budgetConstraint.rhs = (inp.Budget : ℚ)) ∧
    (∀ k, k < inp.Properties.length →
      (buildModel inp).1.countConstraints.getD k default =
        ⟨Sense.lessThanOrEqual, 3,
          termsFrom (fun _ => 1) (offsetAt inp.Properties k)
            ((inp.Properties.getD k default).Renovations)⟩) ∧
    (∀ v, v < totalRens inp.Properties →
      (buildModel inp).1.budgetConstraint.terms.filter (fun t => t.var == v) =
        [⟨((flatRens inp.Properties).getD v default).Cost, v⟩] ∧
      (buildModel inp).1.objective.filter (fun t => t.var == v) =
        [⟨((flatRens inp.Properties).getD v default).Effect, v⟩] ∧
      (allCountTerms (buildModel inp).1).filter (fun t => t.var == v) =
        [⟨1, v⟩]) := by
  refine ⟨⟨?_, ?_, ?_, ?_, ?_, ?_⟩, ?_, ?_⟩
  · rw [buildModel_eq]
    simp [Model.numVars]
  · rw [buildModel_eq]
  · rw [buildModel_eq]
  · rw [buildModel_eq]
    simp [Model.constraints, countCsFrom_length]
    omega
  · rw [buildModel_eq]
  · rw [buildModel_eq]
  · intro k hk
    rw [buildModel_eq]
    have h := countCsFrom_getD inp.Properties 0 k hk
    simpa using h
  · intro v hv
    rw [buildModel_eq]
    refine ⟨?_, ?_, ?_⟩
    · rw [propTermsFrom_filter, if_pos ⟨Nat.zero_le v, by omega⟩]
      simp
    · rw [propTermsFrom_filter, if_pos ⟨Nat.zero_le v, by omega⟩]
      simp
    · rw [allCountTerms]
      show ((countCsFrom 0 inp.Properties).foldr
        (fun c acc => c.terms ++ acc) []).filter (fun t => t.var == v) = _
      rw [allCountTerms_countCsFrom]
      rw [propTermsFrom_filter, if_pos ⟨Nat.zero_le v, by omega⟩]

/-- Claim C1 witness: on scenario A the builder creates 3 variables and
variable 0's unique budget term has coefficient 5 (r1's cost). -/
theorem claim_C1_witness :
    0 < totalRens inpA.Properties ∧
    (buildModel inpA).1.budgetConstraint.terms.filter (fun t => t.var == 0) =
      [⟨5, 0⟩] :=
  ⟨by decide, ((claim_C1 inpA).2.2 0 (by decide)).1⟩

/-- Claim C2: if the solver status is neither optimal nor suboptimal,
`format` returns a solution with an empty assignment list (no error);
if it is optimal or suboptimal it proceeds to the assignment-producing
loop. -/
theorem claim_C2 (inp : Input) (s : SolverSolution)
    (idx : List (String × List Nat)) :
    (s.status ≠ Status.optimal ∧ s.status ≠ Status.subOptimal →
      format inp s idx = some ⟨[]⟩) ∧
    ((s.status = Status.optimal ∨ s.status = Status.subOptimal) →
      format inp s idx =
        (formatProps s idx inp.Properties []).map fun a => ⟨a⟩) := by
  constructor
  · intro h
    apply format_unusable
    simp [usable, SolverSolution.isOptimal, SolverSolution.isSubOptimal,
      h.1, h.2]
  · intro h
    have hcond : (!s.isOptimal && !s.isSubOptimal) = false := by
      rcases h with h | h <;>
        simp [SolverSolution.isOptimal, SolverSolution.isSubOptimal, h]
    simp [format, hcond]

/-- Claim C2 witness: a solver-error result yields the empty solution on
scenario A, and an optimal result takes the loop branch. -/
theorem claim_C2_witness :
    format inpA sErr [] = some ⟨[]⟩ ∧
    format inpA sA (buildModel inpA).2 =
      (formatProps sA (buildModel inpA).2 inpA.Properties []).map
        fun a => ⟨a⟩ :=
  ⟨(claim_C2 inpA sErr []).1 ⟨by decide, by decide⟩,
   (claim_C2 inpA sA (buildModel inpA).2).2 (Or.inl rfl)⟩

/-- Claim C3: on a usable result, `format` returns exactly the pairs whose
variable value rounds to an integer `≥ 1` (`formatted`/`rowFrom` select a
pair at position `j` if and only if `goRound` of its value is not `< 1`);
the last conjunct restates the selection rule of `rowFrom` literally.
Moreover rounding behaves as the spec demands: 0.999999 rounds to 1
(selected), any value in (0, 1/2) rounds to 0 (not selected), and 1 and 0
round to themselves. -/
theorem claim_C3 (inp : Input) (s : SolverSolution)
    (idx : List (String × List Nat)) (hu : usable s = true)
    (hc : covers idx inp.Properties = true) :
    format inp s idx = some ⟨formatted s idx inp.Properties⟩ ∧
    goRound ((999999 : ℚ) / 1000000) = 1 ∧
    (∀ q : ℚ, 0 < q → q < 1/2 → goRound q = 0) ∧
    goRound 1 = 1 ∧ goRound 0 = 0 ∧
    (∀ pid j r rs, rowFrom s idx pid j (r :: rs) =
      if goRound (s.value (varAt idx pid j)) < 1 then
        rowFrom s idx pid (j + 1) rs
      else ⟨pid, r.ID, r.Cost, r.Effect⟩ :: rowFrom s idx pid (j + 1) rs) :=
  ⟨format_eq inp s idx hu hc, by norm_num [goRound],
   goRound_eq_zero_of_lt_half, goRound_one, goRound_zero,
   fun _ _ _ _ => rfl⟩

/-- Claim C3 witness: scenario A with values (1, 1, 0) formats to the
selected-pairs list. -/
theorem claim_C3_witness :
    format inpA sA (buildModel inpA).2 =
      some ⟨formatted sA (buildModel inpA).2 inpA.Properties⟩ :=
  (claim_C3 inpA sA (buildModel inpA).2 (by decide) (by decide)).1

/-- Claim C4: on a usable result the assignment list follows input order —
it is an order-preserving sublist of the full (property, renovation) pair
list in input order; nothing is re-sorted. -/
theorem claim_C4 (inp : Input) (s : SolverSolution)
    (idx : List (String × List Nat)) (hu : usable s = true)
    (hc : covers idx inp.Properties = true) :
    format inp s idx = some ⟨formatted s idx inp.Properties⟩ ∧
    (formatted s idx inp.Properties).Sublist
      (inputAssignments inp.Properties) :=
  ⟨format_eq inp s idx hu hc, formatted_sublist s idx inp.Properties⟩

/-- Claim C4 witness: the scenario-A output is a sublist of the input-order
pair list. -/
theorem claim_C4_witness :
    (formatted sA (buildModel inpA).2 inpA.Properties).Sublist
      (inputAssignments inpA.Properties) :=
  (claim_C4 inpA sA (buildModel inpA).2 (by decide) (by decide)).2

/-- Claim C5 counterexample: with budget 0 and a zero-cost renovation, an
optimal (and feasible) solver result selects the renovation, so the
returned assignment list is NOT empty — the claim as stated fails. -/
theorem claim_C5_counterexample :
    inp0.Budget = 0 ∧ usable s1 = true ∧
    Model.feasible (buildModel inp0).1 s1.value = true ∧
    format inp0 s1 (buildModel inp0).2 = some ⟨[⟨"p1", "r1", 0, 1⟩]⟩ ∧
    (⟨[⟨"p1", "r1", 0, 1⟩]⟩ : solution).Assignments ≠ [] := by
  have hb : buildModel inp0 =
      ({ maximize := true
         objective := [⟨1, 0⟩]
         budgetConstraint := ⟨Sense.lessThanOrEqual, 0, [⟨0, 0⟩]⟩
         countConstraints := [⟨Sense.lessThanOrEqual, 3, [⟨1, 0⟩]⟩]
         vars := [VarKind.bool] },
       [("p1", [0])]) := by decide
  refine ⟨rfl, rfl, ?_, by decide, by decide⟩
  rw [hb, Model.feasible]
  simp [Model.constraints, Model.numVars, Constraint.satBy, evalTerms, s1]

/-- Claim C5, amended: with budget 0, distinct property IDs (the spec's
data-model invariant), and every renovation cost strictly positive (the
spec itself notes the zero-cost exception), every usable feasible solver
result yields an empty assignment list. -/
theorem claim_C5_amended (inp : Input) (s : SolverSolution)
    (hb0 : inp.Budget = 0)
    (hpos : ∀ p ∈ inp.Properties, ∀ r ∈ p.Renovations, 0 < r.Cost)
    (hnd : (inp.Properties.map Property.ID).Nodup)
    (hu : usable s = true)
    (hf : Model.feasible (buildModel inp).1 s.value = true) :
    format inp s (buildModel inp).2 = some ⟨[]⟩ := by
  rw [format_eq inp s _ hu (covers_build_of_nodup inp hnd)]
  have hnil : formatted s (buildModel inp).2 inp.Properties = [] := by
    apply formatted_eq_nil
    intro p hp
    obtain ⟨k, hk, hpk⟩ := List.getElem_of_mem hp
    have hgd : inp.Properties.getD k default = p := by
      rw [List.getD_eq_getElem _ _ hk, hpk]
    have hlk := buildIdx_lookup_nodup inp hnd k hk
    rw [hgd] at hlk
    apply rowFrom_eq_nil
    intro i hi
    have hvar : varAt (buildModel inp).2 p.ID (0 + i) =
        offsetAt inp.Properties k + i := by
      rw [varAt, hlk]
      simp only [Option.getD_some, Nat.zero_add]
      exact varsFrom_getD _ _ i hi
    have hbnd := offsetAt_add_le inp.Properties k hk
    rw [hgd] at hbnd
    have hz := values_zero_of_budget_zero inp s hb0 hpos hf
      (offsetAt inp.Properties k + i) (by omega)
    rw [hvar, hz, goRound_zero]
    norm_num
  rw [hnil]

/-- Claim C5 witness (amended): a budget-0 input with distinct IDs and
(vacuously) positive costs formats to the empty solution. -/
theorem claim_C5_witness :
    format inpE sE (buildModel inpE).2 = some ⟨[]⟩ :=
  claim_C5_amended inpE sE rfl (by decide) (by decide) (by decide) (by decide)

/-- Claim C6: for every input with distinct property IDs and every solver
result whose values are feasible for the built model, every solution
returned by `format` contains at most 3 assignments for each property. -/
theorem claim_C6 (inp : Input) (s : SolverSolution)
    (hnd : (inp.Properties.map Property.ID).Nodup)
    (hf : Model.feasible (buildModel inp).1 s.value = true) :
    ∀ sol, format inp s (buildModel inp).2 = some sol →
    ∀ p ∈ inp.Properties,
    (sol.Assignments.countP fun a => a.Property == p.ID) ≤ 3 := by
  intro sol hsol p hp
  by_cases hu : usable s = true
  · rw [format_eq inp s _ hu (covers_build_of_nodup inp hnd)] at hsol
    obtain rfl := Option.some.inj hsol
    exact count_le_three_core inp s hnd hf p hp
  · rw [format_unusable inp s _ (by simpa using hu)] at hsol
    obtain rfl := Option.some.inj hsol
    simp

/-- Claim C6 witness. -/
theorem claim_C6_witness :
    ((⟨[]⟩ : solution).Assignments.countP
      fun a => a.Property == (⟨"P1", []⟩ : Property).ID) ≤ 3 :=
  claim_C6 inpE sE (by decide) (by decide) ⟨[]⟩ (by decide)
    ⟨"P1", []⟩ (by decide)

/-- Claim C7: every assignment in a solution returned by `format` carries
a property ID, renovation ID, cost and effect copied verbatim from some
input record (never from solver output values). -/
theorem claim_C7 (inp : Input) (s : SolverSolution)
    (idx : List (String × List Nat)) (sol : solution)
    (h : format inp s idx = some sol) :
    ∀ a ∈ sol.Assignments, ∃ p ∈ inp.Properties, ∃ r ∈ p.Renovations,
      a.Property = p.ID ∧ a.RenovationID = r.ID ∧ a.Cost = r.Cost ∧
      a.Effect = r.Effect := by
  intro a ha
  rw [format] at h
  split at h
  · obtain rfl := Option.some.inj h
    simp at ha
  · obtain ⟨out, hout, he⟩ := Option.map_eq_some'.mp h
    have hmem : a ∈ out := by
      have : sol = ⟨out⟩ := he.symm
      rw [this] at ha
      exact ha
    rcases formatProps_mem s idx inp.Properties [] out hout a hmem with
      habs | ⟨p, hp, r, hr, he2⟩
    · simp at habs
    · subst he2
      exact ⟨p, hp, r, hr, rfl, rfl, rfl, rfl⟩

/-- Claim C7 witness: the first scenario-A assignment copies r1's record. -/
theorem claim_C7_witness :
    ∃ p ∈ inpA.Properties, ∃ r ∈ p.Renovations,
      (⟨"P1", "r1", 5, 3⟩ : assignments).Property = p.ID ∧
      (⟨"P1", "r1", 5, 3⟩ : assignments).RenovationID = r.ID ∧
      (⟨"P1", "r1", 5, 3⟩ : assignments).Cost = r.Cost ∧
      (⟨"P1", "r1", 5, 3⟩ : assignments).Effect = r.Effect :=
  claim_C7 inpA sA (buildModel inpA).2
    ⟨[⟨"P1", "r1", 5, 3⟩, ⟨"P1", "r2", 4, 5⟩]⟩ (by decide)
    ⟨"P1", "r1", 5, 3⟩ (by decide)

/-- Claim C8: an error from solver construction, duration configuration,
gap configuration, or the solve call is propagated unmodified by `solver`
(with the empty output and no assignments — the `.error` branch carries no
solution), with no retry. -/
theorem claim_C8 (env : SolverEnv) (inp : Input) :
    (∀ e, env.newSolver = .error e → solver env inp = .error e) ∧
    (∀ e, env.newSolver = .ok () → env.setMaximumDuration = .error e →
      solver env inp = .error e) ∧
    (∀ e, env.newSolver = .ok () → env.setMaximumDuration = .ok () →
      env.setMIPGapRelative = .error e → solver env inp = .error e) ∧
    (∀ e, env.newSolver = .ok () → env.setMaximumDuration = .ok () →
      env.setMIPGapRelative = .ok () → env.solve = .error e →
      solver env inp = .error e) := by
  refine ⟨?_, ?_, ?_, ?_⟩
  · intro e h1
    simp [solver, h1]
  · intro e h1 h2
    simp [solver, h1, h2]
  · intro e h1 h2 h3
    simp [solver, h1, h2, h3]
  · intro e h1 h2 h3 h4
    simp [solver, h1, h2, h3, h4]

/-- Claim C8 witness: each failing environment propagates its error. -/
theorem claim_C8_witness :
    solver envE1 inpA = .error "construction failed" ∧
    solver envE2 inpA = .error "invalid duration" ∧
    solver envE3 inpA = .error "invalid gap" ∧
    solver envE4 inpA = .error "solve failed" :=
  ⟨(claim_C8 envE1 inpA).1 _ rfl,
   (claim_C8 envE2 inpA).2.1 _ rfl rfl,
   (claim_C8 envE3 inpA).2.2.1 _ rfl rfl rfl,
   (claim_C8 envE4 inpA).2.2.2 _ rfl rfl rfl rfl⟩

/-- Claim C9: `format` is a pure deterministic function of its three
inputs — formatting twice yields identical output, and the output depends
on the solver result only through its observable status and values (in the
pure embedding, mutation of inputs is impossible by construction). -/
theorem claim_C9 (inp : Input) (s s' : SolverSolution)
    (idx : List (String × List Nat)) :
    format inp s idx = format inp s idx ∧
    (s.status = s'.status → (∀ v, s.value v = s'.value v) →
      format inp s idx = format inp s' idx) := by
  refine ⟨rfl, ?_⟩
  intro h1 h2
  obtain ⟨st, val⟩ := s
  obtain ⟨st', val'⟩ := s'
  have hv : val = val' := funext h2
  simp only at h1
  subst h1
  subst hv
  rfl

/-- Claim C9 witness: two syntactically different but pointwise-equal
solver results format identically. -/
theorem claim_C9_witness :
    format inpA s1 (buildModel inpA).2 = format inpA s9 (buildModel inpA).2 :=
  (claim_C9 inpA s1 s9 (buildModel inpA).2).2 rfl
    (fun v => by simp [s1, s9])

/-- Claim C10: the variable index built by `solver` is keyed by property
ID with Go-map overwrite semantics, so for a duplicated ID it retains only
the LAST such property's variables (`lastLookup`); the formatter reads
variables through exactly this ID lookup (its output is `formatted`, whose
`rowFrom` consults `varAt`, i.e. the ID-keyed index) while copying each
assignment's fields from the individual input record; and when property
IDs are unique the lookup returns each property's own variable slice, so
the re-association is correct exactly under that precondition. -/
theorem claim_C10 (inp : Input) :
    (∀ pid, mapLookup (buildModel inp).2 pid =
      lastLookup (idxPairsFrom 0 inp.Properties) pid) ∧
    (∀ s, usable s = true → covers (buildModel inp).2 inp.Properties = true →
      format inp s (buildModel inp).2 =
        some ⟨formatted s (buildModel inp).2 inp.Properties⟩) ∧
    ((inp.Properties.map Property.ID).Nodup →
      ∀ k, k < inp.Properties.length →
        mapLookup (buildModel inp).2 ((inp.Properties.getD k default).ID) =
          some (varsFrom (offsetAt inp.Properties k)
            ((inp.Properties.getD k default).Renovations.length))) :=
  ⟨fun pid => buildIdx_lookup inp pid,
   fun s hu hc => format_eq inp s _ hu hc,
   fun hnd k hk => buildIdx_lookup_nodup inp hnd k hk⟩

/-- Claim C10 witness: on the duplicated-ID input the index lookup for
"A" keeps only the last property's variable slice `[2]`; on scenario A
(unique IDs) the lookup returns the property's own slice. -/
theorem claim_C10_witness :
    (mapLookup (buildModel inpDup).2 "A" =
        lastLookup (idxPairsFrom 0 inpDup.Properties) "A" ∧
      lastLookup (idxPairsFrom 0 inpDup.Properties) "A" = some [2]) ∧
    mapLookup (buildModel inpA).2
        ((inpA.Properties.getD 0 default).ID) =
      some (varsFrom (offsetAt inpA.Properties 0)
        ((inpA.Properties.getD 0 default).Renovations.length)) :=
  ⟨⟨(claim_C10 inpDup).1 "A", by decide⟩,
   (claim_C10 inpA).2.2 (by decide) 0 (by decide)⟩

end RenovAlloc
